import Mathlib

/-!
Verification of the clay package manager's core against its specification.

The Rust sources are shallowly embedded: pure functions become Lean
functions, stateful operations become explicit state passing, fallible
operations return `Except`, and the effectful environment (network, stdin,
filesystem) is passed in as explicit parameters and recorded as values.
Rust `HashMap`s are modelled as association lists with replace-on-insert;
`u64`/`u32` arithmetic is modelled over `Nat` (no claim depends on wraparound,
and the one subtraction in the source is an explicit `saturating_sub`).
-/

deriving instance DecidableEq for Except

namespace Clay

/-! ## String helpers mirroring Rust's `str` primitives -/

/-- Rust `str::split(sep)` over the characters of a string.  Like Rust,
splitting the empty string yields one empty piece, and separators at either
end yield empty pieces. -/
def splitOnChar (sep : Char) : List Char → List (List Char)
  | [] => [[]]
  | c :: cs =>
    if c = sep then [] :: splitOnChar sep cs
    else
      match splitOnChar sep cs with
      | [] => [[c]]
      | h :: t => (c :: h) :: t

/-- Rejoin the pieces produced by `splitOnChar`, used to reason about the
split's structure. -/
def joinWithChar (sep : Char) : List (List Char) → List Char
  | [] => []
  | [p] => p
  | p :: ps => p ++ sep :: joinWithChar sep ps

/-- Rust `str::to_lowercase` restricted to the ASCII mapping used by the
operator's y/N answers. -/
def lowerString (s : String) : String := ⟨s.data.map Char.toLower⟩

/-- Rust `str::trim`, over the characters of the string. -/
def trimChars (cs : List Char) : List Char :=
  ((cs.dropWhile Char.isWhitespace).reverse.dropWhile Char.isWhitespace).reverse

/-- Association-list lookup standing in for `HashMap::get`. -/
def alistGet {α : Type} (m : List (String × α)) (k : String) : Option α :=
  match m with
  | [] => none
  | (k', v) :: rest => if k' = k then some v else alistGet rest k

/-- Association-list insert standing in for `HashMap::insert`
(replaces the value when the key is present). -/
def alistInsert {α : Type} (m : List (String × α)) (k : String) (v : α) :
    List (String × α) :=
  match m with
  | [] => [(k, v)]
  | (k', v') :: rest =>
    if k' = k then (k, v) :: rest else (k', v') :: alistInsert rest k v

/-! ## `package_info.rs`: registry data model -/

/-- `DistInfo`: the tarball URL and its expected SHA-1 hex digest. -/
structure DistInfo where
  tarball : String
  shasum : String
deriving DecidableEq, Repr

/-- `PackageInfo`: the registry's description of one concrete version.
`description`, `main`, `bin`, `peer_dependencies` and `optional_dependencies`
exist in the source struct but are never read by the operations modelled
here; only `description` and `main` are carried, the JSON-valued `bin` and
the two unused dependency maps are dropped. -/
structure PackageInfo where
  name : String
  version : String
  description : Option String := none
  main : Option String := none
  dependencies : Option (List (String × String)) := none
  dist : DistInfo
deriving DecidableEq, Repr

/-- `NpmRegistryResponse`: `versions` and `dist-tags` maps. -/
structure NpmRegistryResponse where
  versions : List (String × PackageInfo)
  dist_tags : List (String × String)
deriving DecidableEq, Repr

/-- `NpmRegistryResponse::get_version`. -/
def NpmRegistryResponse.get_version (r : NpmRegistryResponse) (version : String) :
    Option PackageInfo :=
  if version = "latest" then
    match alistGet r.dist_tags "latest" with
    | some latest_version => alistGet r.versions latest_version
    | none => none
  else
    alistGet r.versions version

/-- `NpmRegistryResponse::get_latest_version`. -/
def NpmRegistryResponse.get_latest_version (r : NpmRegistryResponse) :
    Option PackageInfo :=
  match alistGet r.dist_tags "latest" with
  | some latest_version => alistGet r.versions latest_version
  | none => none

/-! ## `package_info.rs`: lock file -/

/-- `LockedPackage`: one lock entry. -/
structure LockedPackage where
  version : String
  resolved : String
  integrity : String
  dependencies : Option (List (String × String))
  required_by : List String
deriving DecidableEq, Repr

/-- `LockFile`. -/
structure LockFile where
  version : String
  packages : List (String × LockedPackage)
deriving DecidableEq, Repr

/-- `LockFile::new`. -/
def LockFile.new : LockFile := { version := "1.0.0", packages := [] }

/-- The list-level body of `LockFile::add_package`: `entry(name).or_insert`
of a fresh record with empty `required_by`, then push `required_by` if it is
not already present.  Fields of an existing entry are left unchanged. -/
def addPackageList (name version resolved integrity : String)
    (dependencies : Option (List (String × String))) (required_by : String) :
    List (String × LockedPackage) → List (String × LockedPackage)
  | [] => [(name, ⟨version, resolved, integrity, dependencies, [required_by]⟩)]
  | (k, p) :: rest =>
    if k = name then
      (k, if required_by ∈ p.required_by then p
          else { p with required_by := p.required_by ++ [required_by] }) :: rest
    else
      (k, p) :: addPackageList name version resolved integrity dependencies
        required_by rest

/-- `LockFile::add_package`. -/
def LockFile.add_package (lf : LockFile) (name version resolved integrity : String)
    (dependencies : Option (List (String × String))) (required_by : String) :
    LockFile :=
  { lf with
    packages := addPackageList name version resolved integrity dependencies
      required_by lf.packages }

/-- The list-level body of `LockFile::remove_package`: retain the other
requesters; when none remain, drop the entry and report `true`. -/
def removePackageList (name required_by : String) :
    List (String × LockedPackage) → List (String × LockedPackage) × Bool
  | [] => ([], false)
  | (k, p) :: rest =>
    if k = name then
      let kept := p.required_by.filter (fun dep => dep ≠ required_by)
      if kept.isEmpty then (rest, true)
      else ((k, { p with required_by := kept }) :: rest, false)
    else
      let (rest2, removed) := removePackageList name required_by rest
      ((k, p) :: rest2, removed)

/-- `LockFile::remove_package`; the Bool is the function's return value. -/
def LockFile.remove_package (lf : LockFile) (name required_by : String) :
    LockFile × Bool :=
  ({ lf with packages := (removePackageList name required_by lf.packages).1 },
   (removePackageList name required_by lf.packages).2)

/-- `LockFile::can_remove_package` (borrows `&self`; no mutation). -/
def LockFile.can_remove_package (lf : LockFile) (name required_by : String) :
    Bool × List String :=
  match alistGet lf.packages name with
  | some p =>
    let remaining := p.required_by.filter (fun dep => dep ≠ required_by)
    (remaining.isEmpty, remaining)
  | none => (true, [])

/-- One lock-file mutation, for reasoning about arbitrary sequences of the
two mutating operations. -/
inductive LockOp where
  | add (name version resolved integrity : String)
      (dependencies : Option (List (String × String))) (required_by : String)
  | remove (name required_by : String)
deriving DecidableEq, Repr

/-- Apply one `LockOp`. -/
def applyLockOp (lf : LockFile) : LockOp → LockFile
  | .add n v r i d rb => lf.add_package n v r i d rb
  | .remove n rb => (lf.remove_package n rb).1

/-- Apply a sequence of lock-file mutations in order. -/
def applyLockOps (ops : List LockOp) (lf : LockFile) : LockFile :=
  ops.foldl applyLockOp lf

/-- Modelled from the spec: the claimed lock invariant — every entry's
`required_by` is non-empty and contained in the lock's keys plus "root". -/
def lockClaimInvariant (lf : LockFile) : Bool :=
  lf.packages.all fun e =>
    (!e.2.required_by.isEmpty) &&
    e.2.required_by.all fun r =>
      (r = "root") || lf.packages.any (fun p => p.1 = r)

/-! ## `npm_client.rs`: registry client -/

/-- `NpmClient::verify_package_integrity`.  The SHA-1 computation is passed
in as `hashFn` (bytes to lowercase hex digest); the function compares the
computed digest with the expected one. -/
def verify_package_integrity (hashFn : List Nat → String)
    (file_data : List Nat) (expected_shasum : String) : Bool :=
  hashFn file_data = expected_shasum

/-- Observable outcome of one `NpmClient::download_package` call:
the returned result, whether a file was created at `dest_path`, and whether
that file was fsync'd (`sync_all`) before returning. -/
structure DownloadTrace where
  result : Except String Unit
  fileWritten : Bool
  fsynced : Bool

/-- Is the operator's answer line affirmative after `trim`/`to_lowercase`?
(the source accepts exactly "y" and "yes"). -/
def affirmativeAnswer (stdinLine : String) : Bool :=
  let answer := (trimChars stdinLine.data).map Char.toLower
  answer = ['y'] || answer = ['y', 'e', 's']

/-- `NpmClient::download_package`.  `httpBody` is the tarball response
(`none` for a transport error or non-success status); `stdinLine` is the
line the override prompt would read (`""` when stdin is closed).  The URL
normalisation and the `create_dir_all` of the destination's parent do not
touch the destination file and are not recorded. -/
def download_package (hashFn : List Nat → String) (package_info : PackageInfo)
    (httpBody : Option (List Nat)) (stdinLine : String) : DownloadTrace :=
  match httpBody with
  | none => ⟨.error "Failed to download package", false, false⟩
  | some bytes =>
    if verify_package_integrity hashFn bytes package_info.dist.shasum then
      ⟨.ok (), true, true⟩
    else if package_info.name = "circular" then
      -- Don't save circular dependency files
      ⟨.ok (), false, false⟩
    else if affirmativeAnswer stdinLine then
      -- Continuing with potentially corrupted package
      ⟨.ok (), true, true⟩
    else
      ⟨.error "Package integrity verification failed. Installation aborted by user.",
        false, false⟩

/-! ## `package_manager.rs`: version-spec classification and selection -/

/-- `PackageResolver::is_exact_version`, over the characters of the spec. -/
def isExactVersionChars (version : List Char) : Bool :=
  if version.head? = some '^' || version.head? = some '~' ||
     version.head? = some '>' || version.head? = some '<' ||
     version.head? = some '=' || version = ['*'] then
    false
  else
    let parts := splitOnChar '.' version
    if 3 ≤ parts.length then
      (parts.take 3).all fun part =>
        ((splitOnChar '-' part).headD []).all Char.isDigit
    else
      false

/-- `PackageResolver::is_exact_version`. -/
def is_exact_version (version : String) : Bool :=
  isExactVersionChars version.data

/-- Modelled from the spec: the spec's syntactic class of exact versions,
`D.D.D[-pre]` — before the first hyphen, exactly three dot-separated
non-empty all-digit components; any hyphenated pre-release suffix after. -/
def specExactVersionChars (version : List Char) : Bool :=
  let base := (splitOnChar '-' version).headD []
  let parts := splitOnChar '.' base
  parts.length = 3 && parts.all fun p => !p.isEmpty && p.all Char.isDigit

/-- Modelled from the spec: the spec's class of range expressions —
caret, tilde, comparison, or `*`. -/
def specRangeChars (version : List Char) : Bool :=
  version.head? = some '^' || version.head? = some '~' ||
  version.head? = some '>' || version.head? = some '<' ||
  version.head? = some '=' || version = ['*']

/-- The version-selection step of `PackageResolver::resolve_package_iterative`
(the `if`/`else if`/`else` over `version_spec`). -/
def selectVersion (registry_response : NpmRegistryResponse)
    (version_spec : String) : Option PackageInfo :=
  if version_spec = "latest" then
    registry_response.get_latest_version
  else if is_exact_version version_spec then
    registry_response.get_version version_spec
  else
    -- For ranges, use latest for now
    registry_response.get_latest_version

/-- The same step including the `ok_or_else` that turns a failed selection
into the version-not-found error. -/
def resolveVersionStep (registry_response : NpmRegistryResponse)
    (version_spec name : String) : Except String PackageInfo :=
  match selectVersion registry_response version_spec with
  | some info => .ok info
  | none =>
    .error ("Version '" ++ version_spec ++ "' not found for package '" ++ name ++ "'")

/-! ## `content_store.rs`: content-addressed store -/

/-- `ContentAddress`. -/
structure ContentAddress where
  hash : String
  size : Nat
  integrity : String
deriving DecidableEq, Repr

/-- `PackageMetadata`. -/
structure PackageMetadata where
  name : String
  version : String
  content_address : ContentAddress
  dependencies : Option (List (String × String))
  files : List String
deriving DecidableEq, Repr

/-- The store's observable state: the two in-memory indices and the set of
content hashes whose object file exists on disk (`get_content_path` is
injective in the hash, so a hash stands for its file's path).  The
dependency-tree index is untouched by the operations modelled here. -/
structure ContentStoreState where
  index : List (String × ContentAddress)
  package_index : List (String × PackageMetadata)
  contentFiles : List String
deriving DecidableEq, Repr

/-- A store with empty indices and no objects on disk. -/
def ContentStoreState.empty : ContentStoreState := ⟨[], [], []⟩

/-- `ContentStore::store_package`.  `hashFn` stands for the SHA-1 hex
computation and `analyze` for `analyze_package_content`'s successful
extraction of the embedded dependency map and file list from the tarball
bytes (its tar/JSON parsing is outside the claims; a parse failure would
abort before any index is touched). -/
def store_package (hashFn : List Nat → String)
    (analyze : List Nat → Option (List (String × String)) × List String)
    (st : ContentStoreState) (package_name package_version : String)
    (tarball_data : List Nat) (integrity_hash : String) :
    ContentStoreState × ContentAddress :=
  let content_hash := hashFn tarball_data
  let content_address : ContentAddress :=
    ⟨content_hash, tarball_data.length, integrity_hash⟩
  match alistGet st.index content_hash with
  | some existing => (st, existing)   -- content already present: no writes
  | none =>
    -- write the compressed object, then analyze, then update both indices
    let afterWrite := { st with
      contentFiles :=
        if st.contentFiles.contains content_hash then st.contentFiles
        else content_hash :: st.contentFiles }
    let analyzed := analyze tarball_data
    let package_metadata : PackageMetadata :=
      ⟨package_name, package_version, content_address, analyzed.1, analyzed.2⟩
    let package_key := package_name ++ "@" ++ package_version
    ({ afterWrite with
       index := alistInsert afterWrite.index content_hash content_address,
       package_index :=
         alistInsert afterWrite.package_index package_key package_metadata },
     content_address)

/-- `ContentStore::cleanup_unused` (the store's GC).  Returns the new state
and `removed_bytes`.  First pass: every package key not in `active_packages`
has its content file deleted (when present) and its metadata record dropped.
Second pass: content files whose hash is indexed but referenced by no
remaining metadata are deleted, and the content index is restricted to
referenced hashes. -/
def cleanup_unused (st : ContentStoreState) (active_packages : List String) :
    ContentStoreState × Nat :=
  let to_remove := st.package_index.filter
    (fun e => !(active_packages.contains e.1))
  let step := fun (acc : ContentStoreState × Nat) (e : String × PackageMetadata) =>
    let s := acc.1
    let freed :=
      if s.contentFiles.contains e.2.content_address.hash then
        acc.2 + e.2.content_address.size
      else acc.2
    ({ s with
       contentFiles :=
         s.contentFiles.filter (fun h => h ≠ e.2.content_address.hash),
       package_index := s.package_index.filter (fun p => p.1 ≠ e.1) },
     freed)
  let afterPackages := to_remove.foldl step (st, 0)
  let st1 := afterPackages.1
  let content_refs := st1.package_index.map (fun e => e.2.content_address.hash)
  let orphanBytes := (st1.index.filter (fun e =>
      !(content_refs.contains e.1) && st1.contentFiles.contains e.1)).foldl
      (fun n e => n + e.2.size) 0
  let st2 := { st1 with
    contentFiles := st1.contentFiles.filter (fun h =>
      !(st1.index.any (fun e => e.1 = h)) || content_refs.contains h),
    index := st1.index.filter (fun e => content_refs.contains e.1) }
  (st2, afterPackages.2 + orphanBytes)

/-- `StoreStats`. -/
structure StoreStats where
  total_packages : Nat
  unique_content_count : Nat
  total_content_size : Nat
  duplicate_packages : Nat
  space_saved : Nat
deriving DecidableEq, Repr

/-- The number of metadata records whose content address is `h`. -/
def contentUsage (st : ContentStoreState) (h : String) : Nat :=
  (st.package_index.filter (fun e => e.2.content_address.hash = h)).length

/-- `ContentStore::calculate_space_saved`: bytes every stored copy would
take if not deduplicated, minus the bytes actually stored
(`saturating_sub`, which is `Nat` subtraction). -/
def calculate_space_saved (st : ContentStoreState) : Nat :=
  let hashes := st.package_index.map (fun e => e.2.content_address.hash)
  let total_if_duplicated := (hashes.dedup.map (fun h =>
      match alistGet st.index h with
      | some content => content.size * contentUsage st h
      | none => 0)).sum
  let actual_size := (st.index.map (fun e => e.2.size)).sum
  total_if_duplicated - actual_size

/-- `ContentStore::get_store_stats`. -/
def get_store_stats (st : ContentStoreState) : StoreStats :=
  { total_packages := st.package_index.length
    unique_content_count := st.index.length
    total_content_size := (st.index.map (fun e => e.2.size)).sum
    duplicate_packages := (st.index.map (fun e =>
        if 1 < contentUsage st e.1 then contentUsage st e.1 - 1 else 0)).sum
    space_saved := calculate_space_saved st }

/-! ## `package_manager.rs`: resolver and installer

The installer's environment (registry metadata over the network, tarball
bytes from the project cache or the network, SHA-1) is a parameter record.
Externally observable actions are recorded as an `Effect` trace; async tasks
are modelled by running them in spawn order (the claims under verification
do not depend on interleavings), and recursion through dynamically fetched
dependency graphs carries explicit fuel, failing with a fuel error instead
of diverging. -/

/-- One externally observable action of the installer. -/
inductive Effect where
  /-- the resolution phase was entered -/
  | resolverInvoked : Effect
  /-- registry metadata or tarball fetched over the network (by name or URL) -/
  | netRequest : String → Effect
  /-- tarball obtained through `download_package_tarball`
      (project cache, else network) -/
  | tarballFetch : String → Effect
  /-- a directory under `node_modules` was created or written (by name) -/
  | fsMutation : String → Effect
deriving DecidableEq, Repr

/-- The project state the modelled operations read and write: the set of
package names with a `node_modules/<name>` directory, and the lock file. -/
structure InstallerState where
  installedDirs : List String
  lock : LockFile
deriving DecidableEq, Repr

/-- The installer's external environment: registry responses by package
name, tarball bytes by URL (`none` = fetch failed), and SHA-1 hex. -/
structure NetEnv where
  registry : List (String × NpmRegistryResponse)
  fetchTarball : String → Option (List Nat)
  hashFn : List Nat → String

/-- `PackageManager::check_packages_already_installed`: partition the
requested specs into already-present names and still-to-install specs. -/
def check_packages_already_installed (installedDirs : List String) :
    List (String × String) → List String × List (String × String)
  | [] => ([], [])
  | (name, version) :: rest =>
    let acc := check_packages_already_installed installedDirs rest
    if installedDirs.contains name then (name :: acc.1, acc.2)
    else (acc.1, (name, version) :: acc.2)

/-- `fs::create_dir_all` for a package directory: present-or-created. -/
def insertName (name : String) (dirs : List String) : List String :=
  if dirs.contains name then dirs else name :: dirs

/-- The body of one spawned task of
`PackageManager::install_dependencies_parallel`: fetch the registry record,
resolve the version spec (exact specs kept, everything else mapped to the
`latest` tag), download with strict integrity (no override prompt on this
path), extract, and record the lock entry under `parent_name`.  Returns the
result, the new state, the emitted effects, and the nested dependency map to
recurse into. -/
def installDepTask (env : NetEnv) (st : InstallerState)
    (dep_name dep_version parent_name : String) :
    Except String Unit × InstallerState × List Effect ×
      Option (String × List (String × String)) :=
  match alistGet env.registry dep_name with
  | none =>
    (.error ("Failed to fetch package info for " ++ dep_name), st,
     [Effect.netRequest dep_name], none)
  | some registry_response =>
    let resolvedVersion :=
      if dep_version = "latest" then
        registry_response.get_latest_version.map (fun p => p.version)
      else if is_exact_version dep_version then
        some dep_version
      else
        registry_response.get_latest_version.map (fun p => p.version)
    match resolvedVersion with
    | none =>
      (.error ("Could not resolve version for " ++ dep_name), st,
       [Effect.netRequest dep_name], none)
    | some rv =>
      match (registry_response.get_version rv).orElse
          (fun _ => registry_response.get_latest_version) with
      | none =>
        (.error ("Package info not found for " ++ dep_name), st,
         [Effect.netRequest dep_name], none)
      | some package_info =>
        match env.fetchTarball package_info.dist.tarball with
        | none =>
          (.error "Failed to download package", st,
           [Effect.netRequest dep_name,
            Effect.netRequest package_info.dist.tarball], none)
        | some bytes =>
          if verify_package_integrity env.hashFn bytes package_info.dist.shasum then
            let st' : InstallerState :=
              { installedDirs := insertName package_info.name st.installedDirs,
                lock := st.lock.add_package package_info.name package_info.version
                  package_info.dist.tarball package_info.dist.shasum
                  package_info.dependencies parent_name }
            (.ok (), st',
             [Effect.netRequest dep_name,
              Effect.netRequest package_info.dist.tarball,
              Effect.fsMutation package_info.name],
             package_info.dependencies.map (fun deps => (dep_name, deps)))
          else
            (.error ("Package integrity verification failed for " ++
              package_info.name), st,
             [Effect.netRequest dep_name,
              Effect.netRequest package_info.dist.tarball], none)

/-- The task-spawning loop of `install_dependencies_parallel` over one
dependency map: already-present dependencies only get their lock
relationship recorded; the rest run `installDepTask`.  Also collects the
nested dependency maps for the next level. -/
def installDepsLoop (env : NetEnv) (st : InstallerState) (parent_name : String) :
    List (String × String) →
    Except String Unit × InstallerState × List Effect ×
      List (String × List (String × String))
  | [] => (.ok (), st, [], [])
  | (dep_name, dep_version) :: rest =>
    if st.installedDirs.contains dep_name then
      -- still add to the lock file to track the dependency relationship
      let st' := { st with
        lock := st.lock.add_package dep_name dep_version "" "" none parent_name }
      installDepsLoop env st' parent_name rest
    else
      match installDepTask env st dep_name dep_version parent_name with
      | (.error e, st', ev, _) => (.error e, st', ev, [])
      | (.ok _, st', ev, nested?) =>
        match installDepsLoop env st' parent_name rest with
        | (r, st'', ev2, nested) =>
          (r, st'', ev ++ ev2,
           match nested? with
           | some n => n :: nested
           | none => nested)

mutual

/-- `PackageManager::install_dependencies_parallel`: run the per-dependency
tasks, then recurse into the nested dependency maps. -/
def install_dependencies_parallel (env : NetEnv) :
    Nat → InstallerState → List (String × String) → String →
    Except String Unit × InstallerState × List Effect
  | 0, st, _, _ => (.error "recursion fuel exhausted", st, [])
  | Nat.succ fuel, st, dependencies, parent_name =>
    match installDepsLoop env st parent_name dependencies with
    | (.error e, st1, ev, _) => (.error e, st1, ev)
    | (.ok _, st1, ev, nested) =>
      match nestedDepsLoop env fuel st1 nested with
      | (r, st2, ev2) => (r, st2, ev ++ ev2)

/-- The trailing loop of `install_dependencies_parallel` over the collected
`(dep_name, nested_deps)` pairs. -/
def nestedDepsLoop (env : NetEnv) :
    Nat → InstallerState → List (String × List (String × String)) →
    Except String Unit × InstallerState × List Effect
  | 0, st, _ => (.error "recursion fuel exhausted", st, [])
  | Nat.succ _, st, [] => (.ok (), st, [])
  | Nat.succ fuel, st, (dep_name, deps) :: rest =>
    if deps.isEmpty then
      nestedDepsLoop env fuel st rest
    else
      match install_dependencies_parallel env fuel st deps dep_name with
      | (.error e, st', ev) => (.error e, st', ev)
      | (.ok _, st', ev) =>
        match nestedDepsLoop env fuel st' rest with
        | (r, st'', ev2) => (r, st'', ev ++ ev2)

end

/-- `PackageManager::install_single_package`.  The tarball is obtained by
`download_package_tarball` (project cache, else registry client); its
outcome is `env.fetchTarball` of the dist URL and a `tarballFetch` effect.
Extraction materialises `node_modules/<name>`; the `package.json` update for
explicitly requested roots lives outside `node_modules` and carries no
effect here.  The lock entry's requester is `"root"` for a root install and
the package's own name otherwise. -/
def install_single_package (env : NetEnv) (fuel : Nat) (st : InstallerState)
    (package_info : PackageInfo) (update_package_json _is_dev : Bool) :
    Except String Unit × InstallerState × List Effect :=
  if package_info.name = "circular" then
    (.ok (), st, [])   -- skip circular dependency stubs
  else if st.installedDirs.contains package_info.name then
    (.ok (), st, [])   -- already installed
  else
    match env.fetchTarball package_info.dist.tarball with
    | none =>
      (.error ("Failed to download tarball for " ++ package_info.name), st,
       [Effect.tarballFetch package_info.dist.tarball])
    | some _bytes =>
      let st1 : InstallerState :=
        { installedDirs := insertName package_info.name st.installedDirs,
          lock := st.lock.add_package package_info.name package_info.version
            package_info.dist.tarball package_info.dist.shasum
            package_info.dependencies
            (if update_package_json then "root"
             else package_info.name) }
      let ev0 := [Effect.tarballFetch package_info.dist.tarball,
                  Effect.fsMutation package_info.name]
      match package_info.dependencies with
      | some deps =>
        match install_dependencies_parallel env fuel st1 deps package_info.name with
        | (r, st2, ev) => (r, st2, ev0 ++ ev)
      | none => (.ok (), st1, ev0)

/-- `ResolvedPackage` (resolver output node). -/
inductive ResolvedPackage where
  | mk (name version : String) (info : PackageInfo)
      (dependencies : List ResolvedPackage) (is_dev : Bool)

/-- The `name` field. -/
def ResolvedPackage.name : ResolvedPackage → String
  | ⟨n, _, _, _, _⟩ => n

/-- The `version` field. -/
def ResolvedPackage.version : ResolvedPackage → String
  | ⟨_, v, _, _, _⟩ => v

/-- The `info` field. -/
def ResolvedPackage.info : ResolvedPackage → PackageInfo
  | ⟨_, _, i, _, _⟩ => i

/-- The `dependencies` field. -/
def ResolvedPackage.dependencies : ResolvedPackage → List ResolvedPackage
  | ⟨_, _, _, d, _⟩ => d

/-- The `is_dev` field. -/
def ResolvedPackage.is_dev : ResolvedPackage → Bool
  | ⟨_, _, _, _, d⟩ => d

mutual

/-- `PackageManager::install_resolved_package`: skip when the directory
exists, otherwise install dependencies first (post-order), then the node. -/
def install_resolved_package (env : NetEnv) :
    Nat → InstallerState → ResolvedPackage → Bool →
    Except String Unit × InstallerState × List Effect
  | 0, st, _, _ => (.error "recursion fuel exhausted", st, [])
  | Nat.succ fuel, st, pkg, update_package_json =>
    if st.installedDirs.contains pkg.name then
      (.ok (), st, [])
    else
      match installResolvedDeps env fuel st pkg.dependencies with
      | (.error e, st1, ev) => (.error e, st1, ev)
      | (.ok _, st1, ev) =>
        match install_single_package env fuel st1 pkg.info update_package_json
            pkg.is_dev with
        | (r, st2, ev2) => (r, st2, ev ++ ev2)

/-- The dependency loop of `install_resolved_package`. -/
def installResolvedDeps (env : NetEnv) :
    Nat → InstallerState → List ResolvedPackage →
    Except String Unit × InstallerState × List Effect
  | 0, st, _ => (.error "recursion fuel exhausted", st, [])
  | Nat.succ _, st, [] => (.ok (), st, [])
  | Nat.succ fuel, st, dep :: rest =>
    match install_resolved_package env fuel st dep false with
    | (.error e, st', ev) => (.error e, st', ev)
    | (.ok _, st', ev) =>
      match installResolvedDeps env fuel st' rest with
      | (r, st'', ev2) => (r, st'', ev ++ ev2)

end

/-! ### Resolver worklist (`resolve_package_iterative`) -/

/-- A resolved node as first recorded by the worklist: child list still
empty, to be attached by the tree rebuild. -/
structure FlatResolved where
  name : String
  version : String
  info : PackageInfo
  is_dev : Bool
deriving DecidableEq, Repr

/-- The resolver's working maps: the per-resolution registry cache, the
current resolution stack, the resolved set keyed by `name@version_spec`,
and the auxiliary dependency graph. -/
structure ResolveAcc where
  resolved_cache : List (String × NpmRegistryResponse)
  resolution_stack : List String
  resolved_packages : List (String × FlatResolved)
  dependency_graph : List (String × List String)

/-- The worklist loop of `PackageResolver::resolve_package_iterative`:
pop an item, skip if on the stack or already resolved, fetch or reuse the
registry record, select a version, push the declared dependencies, and
record the node and its child keys. -/
def resolveLoop (registry : List (String × NpmRegistryResponse)) :
    Nat → ResolveAcc → List (String × String × Bool) → List Effect →
    Except String ResolveAcc × List Effect
  | _, acc, [], events => (.ok acc, events)
  | 0, _, _ :: _, events => (.error "resolution fuel exhausted", events)
  | Nat.succ fuel, acc, (name, version_spec, is_dev) :: rest, events =>
    let package_key := name ++ "@" ++ version_spec
    if acc.resolution_stack.contains package_key then
      resolveLoop registry fuel acc rest events
    else if (alistGet acc.resolved_packages package_key).isSome then
      resolveLoop registry fuel acc rest events
    else
      let acc1 := { acc with
        resolution_stack := package_key :: acc.resolution_stack }
      let fetched : Except String
          (ResolveAcc × NpmRegistryResponse × List Effect) :=
        match alistGet acc1.resolved_cache name with
        | some response => .ok (acc1, response, events)
        | none =>
          match alistGet registry name with
          | some response =>
            .ok ({ acc1 with
                   resolved_cache := alistInsert acc1.resolved_cache name response },
                 response, events ++ [Effect.netRequest name])
          | none => .error ("Failed to fetch package info for " ++ name)
      match fetched with
      | .error e => (.error e, events ++ [Effect.netRequest name])
      | .ok (acc2, registry_response, events') =>
        match resolveVersionStep registry_response version_spec name with
        | .error e => (.error e, events')
        | .ok package_info =>
          let deps := package_info.dependencies.getD []
          let dep_keys := deps.map (fun d => d.1 ++ "@" ++ d.2)
          let acc3 := { acc2 with
            dependency_graph :=
              alistInsert acc2.dependency_graph package_key dep_keys,
            resolved_packages :=
              alistInsert acc2.resolved_packages package_key
                ⟨name, package_info.version, package_info, is_dev⟩,
            resolution_stack :=
              acc2.resolution_stack.filter (fun k => k ≠ package_key) }
          resolveLoop registry fuel acc3
            (deps.map (fun d => (d.1, d.2, false)) ++ rest) events'

/-- The cycle stub returned by `build_tree_recursive` for a re-entered key. -/
def circularStub : ResolvedPackage :=
  ⟨"circular", "0.0.0",
   { name := "circular", version := "0.0.0", dist := ⟨"", ""⟩ }, [], false⟩

mutual

/-- `PackageResolver::build_tree_recursive`: attach children by the
dependency graph, replacing re-entered keys with the circular stub. -/
def buildTree (acc : ResolveAcc) :
    Nat → String → List String → Except String ResolvedPackage
  | 0, _, _ => .error "resolution fuel exhausted"
  | Nat.succ fuel, package_key, visited =>
    if visited.contains package_key then
      .ok circularStub
    else
      match alistGet acc.resolved_packages package_key with
      | none => .error ("Package not found: " ++ package_key)
      | some flat =>
        let dep_keys := (alistGet acc.dependency_graph package_key).getD []
        .ok ⟨flat.name, flat.version, flat.info,
             buildTreeChildren acc fuel dep_keys (package_key :: visited),
             flat.is_dev⟩

/-- The child loop of `build_tree_recursive`; children whose build fails are
skipped (`if let Ok(dep) = ...`). -/
def buildTreeChildren (acc : ResolveAcc) :
    Nat → List String → List String → List ResolvedPackage
  | 0, _, _ => []
  | Nat.succ _, [], _ => []
  | Nat.succ fuel, dep_key :: rest, visited =>
    match buildTree acc fuel dep_key visited with
    | .ok dep => dep :: buildTreeChildren acc fuel rest visited
    | .error _ => buildTreeChildren acc fuel rest visited

end

/-- `PackageResolver::resolve_package_iterative`: drain the worklist from
the root item, then rebuild the tree from the root key.  Also returns the
resolver's registry cache for merging into the shared cache. -/
def resolve_package_iterative (registry : List (String × NpmRegistryResponse))
    (fuel : Nat) (resolved_cache : List (String × NpmRegistryResponse))
    (root_name root_version_spec : String) (root_is_dev : Bool) :
    Except String (ResolvedPackage × List (String × NpmRegistryResponse)) ×
      List Effect :=
  match resolveLoop registry fuel ⟨resolved_cache, [], [], []⟩
      [(root_name, root_version_spec, root_is_dev)] [] with
  | (.error e, events) => (.error e, events)
  | (.ok acc, events) =>
    match buildTree acc fuel (root_name ++ "@" ++ root_version_spec) [] with
    | .error e => (.error e, events)
    | .ok pkg => (.ok (pkg, acc.resolved_cache), events)

/-- The collection loop of `PackageResolver::resolve_multiple_packages`,
with the semaphore-bounded tasks run in spawn order: each root resolution
starts from the shared cache and merges its cache back; failed roots are
reported and excluded, not propagated. -/
def resolveMultipleLoop (registry : List (String × NpmRegistryResponse))
    (fuel : Nat) :
    List (String × String × Bool) → List (String × NpmRegistryResponse) →
    List ResolvedPackage → List Effect →
    List ResolvedPackage × List Effect
  | [], _, resolved, events => (resolved, events)
  | (name, version, is_dev) :: rest, cache, resolved, events =>
    match resolve_package_iterative registry fuel cache name version is_dev with
    | (.ok (pkg, taskCache), ev) =>
      resolveMultipleLoop registry fuel rest
        (taskCache.foldl (fun m e => alistInsert m e.1 e.2) cache)
        (resolved ++ [pkg]) (events ++ ev)
    | (.error _, ev) =>
      resolveMultipleLoop registry fuel rest cache resolved (events ++ ev)

/-- `PackageResolver::resolve_multiple_packages` (never fails as a whole). -/
def resolve_multiple_packages (registry : List (String × NpmRegistryResponse))
    (fuel : Nat) (packages : List (String × String × Bool)) :
    List ResolvedPackage × List Effect :=
  if packages.isEmpty then ([], [])
  else resolveMultipleLoop registry fuel packages [] [] []

/-- The phase-3 loop of `install_multiple_packages`: install each surviving
root (with `update_package_json = true`), aborting on the first error. -/
def installRootsLoop (env : NetEnv) (fuel : Nat) :
    InstallerState → List ResolvedPackage →
    Except String Unit × InstallerState × List Effect
  | st, [] => (.ok (), st, [])
  | st, pkg :: rest =>
    match install_resolved_package env fuel st pkg true with
    | (.error e, st', ev) => (.error e, st', ev)
    | (.ok _, st', ev) =>
      match installRootsLoop env fuel st' rest with
      | (r, st'', ev2) => (r, st'', ev ++ ev2)

/-- `PackageManager::install_multiple_packages`.  When every requested
package name already has a `node_modules` directory, the function prints a
summary and returns success before constructing the resolver; otherwise it
resolves the remaining specs, filters out resolved packages whose directory
exists, and installs the rest.  (`count_total_packages` feeds the progress
display only and is not modelled.) -/
def install_multiple_packages (env : NetEnv) (fuel : Nat)
    (st : InstallerState) (packages : List (String × String))
    (is_dev _is_specific_install : Bool) :
    Except String Unit × InstallerState × List Effect :=
  let packages_to_check :=
    (check_packages_already_installed st.installedDirs packages).2
  if packages_to_check.isEmpty then
    (.ok (), st, [])
  else
    let resolution := resolve_multiple_packages env.registry fuel
      (packages_to_check.map (fun nv => (nv.1, nv.2, is_dev)))
    let resolved_packages := resolution.1
    let events := Effect.resolverInvoked :: resolution.2
    if resolved_packages.isEmpty then
      (.ok (), st, events)   -- "No valid packages to install"
    else
      let to_install := resolved_packages.filter
        (fun pkg => !(st.installedDirs.contains pkg.name))
      if to_install.isEmpty then
        (.ok (), st, events)
      else
        match installRootsLoop env fuel st to_install with
        | (r, st', ev) => (r, st', events ++ ev)

/-! ## Verification predicates and concrete sample inputs -/

def piSample : PackageInfo :=
  { name := "lodash", version := "4.17.21", dist := ⟨"u", "s"⟩ }

def rrSample : NpmRegistryResponse :=
  { versions := [("4.17.21", piSample)], dist_tags := [("latest", "4.17.21")] }

def lockSample : LockFile :=
  LockFile.new.add_package "a" "1.0.0" "url" "sha" none "root"

/-- A stand-in SHA-1: any fixed function works for concrete evaluations. -/
def sha1stub : List Nat → String :=
  fun _ => "da39a3ee5e6b4b0d3255bfef95601890afd80709"

/-- The cycle stub's `PackageInfo` (empty tarball URL and shasum). -/
def circularInfo : PackageInfo :=
  { name := "circular", version := "0.0.0", dist := ⟨"", ""⟩ }

def plainInfo : PackageInfo :=
  { name := "lodash", version := "4.17.21",
    dist := ⟨"https://registry.npmjs.org/lodash/-/lodash-4.17.21.tgz",
      "2da2886a4d45b2c99036a1cb84b2d6a70c9b0d95"⟩ }

/-- Two packages sharing one content object, with only the first active. -/
def gcSharedInput : ContentStoreState :=
  { index := [("aa", ⟨"aa", 5, "sha"⟩)],
    package_index :=
      [("a@1.0.0", ⟨"a", "1.0.0", ⟨"aa", 5, "sha"⟩, none, []⟩),
       ("b@1.0.0", ⟨"b", "1.0.0", ⟨"aa", 5, "sha"⟩, none, []⟩)],
    contentFiles := ["aa"] }

def analyzeStub : List Nat → Option (List (String × String)) × List String :=
  fun _ => (none, [])

def envSample : NetEnv :=
  { registry := [], fetchTarball := fun _ => none, hashFn := sha1stub }

/-- The lock has an entry for `name` whose `required_by` contains `x`. -/
def requiredByMem (lf : LockFile) (name x : String) : Prop :=
  ∃ p, alistGet lf.packages name = some p ∧ x ∈ p.required_by

def depInfo : PackageInfo :=
  { name := "ms", version := "2.1.3", dependencies := none,
    dist := ⟨"https://registry.npmjs.org/ms/-/ms-2.1.3.tgz", "shasum"⟩ }

def envFetchOk : NetEnv :=
  { registry := [], fetchTarball := fun _ => some [], hashFn := sha1stub }

/-! ## Theorems -/

theorem splitOnChar_ne_nil (sep : Char) (cs : List Char) : splitOnChar sep cs ≠ [] := by
  induction cs with
  | nil => simp [splitOnChar]
  | cons c cs ih =>
    simp only [splitOnChar]
    split
    · simp
    · match h : splitOnChar sep cs with
      | [] => exact absurd h ih
      | hd :: tl => simp [h]

theorem splitOnChar_of_not_mem (sep : Char) (cs : List Char) (h : sep ∉ cs) :
    splitOnChar sep cs = [cs] := by
  induction cs with
  | nil => simp [splitOnChar]
  | cons c cs ih =>
    simp only [List.mem_cons, not_or] at h
    have hcs := ih h.2
    simp [splitOnChar, Ne.symm h.1, hcs]

theorem splitOnChar_append_sep (sep : Char) (xs ys : List Char) (h : sep ∉ xs) :
    splitOnChar sep (xs ++ sep :: ys) = xs :: splitOnChar sep ys := by
  induction xs with
  | nil => simp [splitOnChar]
  | cons x xs ih =>
    simp only [List.mem_cons, not_or] at h
    have hxs := ih h.2
    simp only [List.cons_append, splitOnChar, if_neg (Ne.symm h.1), List.append_eq, hxs]

theorem splitOnChar_append_head (sep : Char) (xs ys : List Char) (h : sep ∉ xs) :
    ∃ hh tt, splitOnChar sep ys = hh :: tt ∧
      splitOnChar sep (xs ++ ys) = (xs ++ hh) :: tt := by
  induction xs with
  | nil =>
    match hy : splitOnChar sep ys with
    | [] => exact absurd hy (splitOnChar_ne_nil sep ys)
    | hh :: tt => exact ⟨hh, tt, rfl, by simp⟩
  | cons x xs ih =>
    simp only [List.mem_cons, not_or] at h
    obtain ⟨hh, tt, hy, hx⟩ := ih h.2
    exact ⟨hh, tt, hy, by
      simp only [List.cons_append, splitOnChar, if_neg (Ne.symm h.1), List.append_eq, hx]⟩

theorem not_mem_of_mem_splitOnChar (sep : Char) (cs : List Char) (p : List Char)
    (hp : p ∈ splitOnChar sep cs) : sep ∉ p := by
  induction cs generalizing p with
  | nil =>
    simp [splitOnChar] at hp
    simp [hp]
  | cons c cs ih =>
    simp only [splitOnChar] at hp
    by_cases hc : c = sep
    · rw [if_pos hc] at hp
      rcases List.mem_cons.mp hp with h1 | h2
      · simp [h1]
      · exact ih p h2
    · rw [if_neg hc] at hp
      match hsp : splitOnChar sep cs with
      | [] => exact absurd hsp (splitOnChar_ne_nil sep cs)
      | hd :: tl =>
        rw [hsp] at hp
        rcases List.mem_cons.mp hp with h1 | h2
        · subst h1
          intro hmem
          rcases List.mem_cons.mp hmem with h3 | h4
          · exact hc h3.symm
          · exact ih hd (by rw [hsp]; exact List.mem_cons_self hd tl) h4
        · exact ih p (by rw [hsp]; exact List.mem_cons.mpr (Or.inr h2))

theorem joinWithChar_splitOnChar (sep : Char) (cs : List Char) :
    joinWithChar sep (splitOnChar sep cs) = cs := by
  induction cs with
  | nil => simp [splitOnChar, joinWithChar]
  | cons c cs ih =>
    simp only [splitOnChar]
    by_cases hc : c = sep
    · rw [if_pos hc]
      match hsp : splitOnChar sep cs with
      | [] => exact absurd hsp (splitOnChar_ne_nil sep cs)
      | hd :: tl =>
        rw [hsp] at ih
        subst hc
        simp [joinWithChar, ih]
    · rw [if_neg hc]
      match hsp : splitOnChar sep cs with
      | [] => exact absurd hsp (splitOnChar_ne_nil sep cs)
      | hd :: tl =>
        rw [hsp] at ih
        match tl with
        | [] => simp_all [joinWithChar]
        | t1 :: ts => simp_all [joinWithChar]

theorem digit_head_range_check (a0 : Char) (tail : List Char)
    (hdig : a0.isDigit = true) :
    ¬ (((a0 :: tail : List Char).head? = some '^' ||
        (a0 :: tail : List Char).head? = some '~' ||
        (a0 :: tail : List Char).head? = some '>' ||
        (a0 :: tail : List Char).head? = some '<' ||
        (a0 :: tail : List Char).head? = some '=' ||
        (a0 :: tail : List Char) = ['*']) = true) := by
  intro h
  simp only [List.head?_cons, Bool.or_eq_true, decide_eq_true_eq,
    Option.some.injEq, List.cons.injEq] at h
  rcases h with ((((h | h) | h) | h) | h) | h
  · rw [h] at hdig; exact absurd hdig (by decide)
  · rw [h] at hdig; exact absurd hdig (by decide)
  · rw [h] at hdig; exact absurd hdig (by decide)
  · rw [h] at hdig; exact absurd hdig (by decide)
  · rw [h] at hdig; exact absurd hdig (by decide)
  · rw [h.1] at hdig; exact absurd hdig (by decide)

theorem specExact_implies_parts (cs : List Char)
    (h : specExactVersionChars cs = true) :
    ∃ a b c tailRest,
      cs = a ++ '.' :: (b ++ '.' :: (c ++ tailRest)) ∧
      (tailRest = [] ∨ ∃ j, tailRest = '-' :: j) ∧
      a ≠ [] ∧ b ≠ [] ∧ c ≠ [] ∧
      a.all Char.isDigit = true ∧ b.all Char.isDigit = true ∧ c.all Char.isDigit = true ∧
      '.' ∉ a ∧ '.' ∉ b ∧ '.' ∉ c ∧ '-' ∉ a ∧ '-' ∉ b ∧ '-' ∉ c := by
  unfold specExactVersionChars at h
  match hsp : splitOnChar '-' cs with
  | [] => exact absurd hsp (splitOnChar_ne_nil _ _)
  | base :: rest =>
    rw [hsp] at h
    simp only [List.headD_cons, Bool.and_eq_true, decide_eq_true_eq] at h
    obtain ⟨hlen, hall⟩ := h
    obtain ⟨a, b, c, habc⟩ := List.length_eq_three.mp hlen
    rw [habc] at hall
    simp only [List.all_cons, List.all_nil, Bool.and_eq_true, Bool.and_true,
      Bool.not_eq_true'] at hall
    obtain ⟨⟨hane0, hadig⟩, ⟨hbne0, hbdig⟩, ⟨hcne0, hcdig⟩⟩ := hall
    have hane : a ≠ [] := fun he => by rw [he] at hane0; simp at hane0
    have hbne : b ≠ [] := fun he => by rw [he] at hbne0; simp at hbne0
    have hcne : c ≠ [] := fun he => by rw [he] at hcne0; simp at hcne0
    have hbase_mem : base ∈ splitOnChar '-' cs := by rw [hsp]; exact List.mem_cons_self _ _
    have hbase_nohyp : '-' ∉ base := not_mem_of_mem_splitOnChar '-' cs base hbase_mem
    have hadot : '.' ∉ a :=
      not_mem_of_mem_splitOnChar '.' base a (by rw [habc]; simp)
    have hbdot : '.' ∉ b :=
      not_mem_of_mem_splitOnChar '.' base b (by rw [habc]; simp)
    have hcdot : '.' ∉ c :=
      not_mem_of_mem_splitOnChar '.' base c (by rw [habc]; simp)
    have hbase_eq : base = a ++ '.' :: (b ++ '.' :: c) := by
      have := joinWithChar_splitOnChar '.' base
      rw [habc] at this
      simpa [joinWithChar] using this.symm
    have hsub : ∀ x, x ∈ a ∨ x ∈ b ∨ x ∈ c → x ∈ base := by
      intro x hx
      rw [hbase_eq]
      rcases hx with hx | hx | hx <;> simp [hx]
    have hahyp : '-' ∉ a := fun hm => hbase_nohyp (hsub _ (Or.inl hm))
    have hbhyp : '-' ∉ b := fun hm => hbase_nohyp (hsub _ (Or.inr (Or.inl hm)))
    have hchyp : '-' ∉ c := fun hm => hbase_nohyp (hsub _ (Or.inr (Or.inr hm)))
    have hjoin := joinWithChar_splitOnChar '-' cs
    rw [hsp] at hjoin
    match rest with
    | [] =>
      refine ⟨a, b, c, [], ?_, Or.inl rfl, hane, hbne, hcne, hadig, hbdig, hcdig,
        hadot, hbdot, hcdot, hahyp, hbhyp, hchyp⟩
      simp only [joinWithChar] at hjoin
      rw [← hjoin, hbase_eq]
      simp
    | r1 :: rs =>
      refine ⟨a, b, c, '-' :: joinWithChar '-' (r1 :: rs), ?_,
        Or.inr ⟨_, rfl⟩, hane, hbne, hcne, hadig, hbdig, hcdig,
        hadot, hbdot, hcdot, hahyp, hbhyp, hchyp⟩
      have hjoin2 : base ++ '-' :: joinWithChar '-' (r1 :: rs) = cs := by
        simpa [joinWithChar] using hjoin
      rw [← hjoin2, hbase_eq]
      simp

theorem specExact_implies_isExact (cs : List Char)
    (h : specExactVersionChars cs = true) : isExactVersionChars cs = true := by
  obtain ⟨a, b, c, tailRest, hcs, htail, hane, hbne, hcne, hadig, hbdig, hcdig,
    hadot, hbdot, hcdot, hahyp, hbhyp, hchyp⟩ := specExact_implies_parts cs h
  obtain ⟨a0, a', ha0⟩ : ∃ a0 a', a = a0 :: a' := by
    cases a with
    | nil => exact absurd rfl hane
    | cons x xs => exact ⟨x, xs, rfl⟩
  have ha0dig : a0.isDigit = true := by
    have := List.all_eq_true.mp hadig a0 (by rw [ha0]; exact List.mem_cons_self _ _)
    simpa using this
  have hcs' : cs = a0 :: (a' ++ '.' :: (b ++ '.' :: (c ++ tailRest))) := by
    rw [hcs, ha0]; simp
  have hsplit3 : ∃ ext rest2, splitOnChar '.' cs = a :: b :: (c ++ ext) :: rest2 ∧
      (splitOnChar '-' (c ++ ext)).headD [] = c := by
    rcases htail with hte | ⟨j, htj⟩
    · subst hte
      refine ⟨[], [], ?_, ?_⟩
      · rw [hcs]
        rw [splitOnChar_append_sep '.' a _ hadot,
            splitOnChar_append_sep '.' b _ hbdot]
        simp [splitOnChar_of_not_mem '.' c hcdot]
      · simp [splitOnChar_of_not_mem '-' c hchyp]
    · subst htj
      match hj : splitOnChar '.' j with
      | [] => exact absurd hj (splitOnChar_ne_nil _ _)
      | h1 :: t1 =>
        have htail_split : splitOnChar '.' ('-' :: j) = ('-' :: h1) :: t1 := by
          simp [splitOnChar, hj, show ¬('-' = '.') by decide]
        obtain ⟨hh, tt, hy, hx⟩ := splitOnChar_append_head '.' c ('-' :: j) hcdot
        rw [htail_split] at hy
        injection hy with hy1 hy2
        subst hy1
        subst hy2
        refine ⟨'-' :: h1, t1, ?_, ?_⟩
        · rw [hcs]
          rw [splitOnChar_append_sep '.' a _ hadot,
              splitOnChar_append_sep '.' b _ hbdot]
          rw [hx]
        · rw [splitOnChar_append_sep '-' c h1 hchyp]
          simp
  obtain ⟨ext, rest2, hsplit, hthird⟩ := hsplit3
  unfold isExactVersionChars
  rw [if_neg]
  · rw [hsplit]
    rw [if_pos (by simp)]
    rw [List.take_succ_cons, List.take_succ_cons, List.take_succ_cons, List.take_zero]
    rw [List.all_cons, List.all_cons, List.all_cons, List.all_nil]
    rw [splitOnChar_of_not_mem '-' a hahyp, splitOnChar_of_not_mem '-' b hbhyp]
    simp only [List.headD_cons, hthird]
    simp [hadig, hbdig, hcdig]
  · rw [hcs']
    exact digit_head_range_check a0 _ ha0dig

theorem specExact_ne_latest (s : String) (h : specExactVersionChars s.data = true) :
    s ≠ "latest" := by
  intro he; rw [he] at h; exact absurd h (by decide)

theorem range_ne_latest (s : String) (h : specRangeChars s.data = true) :
    s ≠ "latest" := by
  intro he; rw [he] at h; exact absurd h (by decide)

theorem isExact_false_of_range (s : String) (h : specRangeChars s.data = true) :
    is_exact_version s = false := by
  unfold specRangeChars at h
  unfold is_exact_version isExactVersionChars
  rw [if_pos h]

/-- C5: for every resolver work item, a literal "latest" or a range
expression selects the version bound to the "latest" distribution tag; a
syntactically exact `D.D.D[-pre]` spec selects exactly that version from the
`versions` map; and when the selection finds nothing, resolution fails with
the version-not-found error. -/
theorem C5_version_selection (r : NpmRegistryResponse) (version_spec name : String) :
    ((version_spec = "latest" ∨ specRangeChars version_spec.data = true) →
      selectVersion r version_spec = r.get_latest_version) ∧
    (specExactVersionChars version_spec.data = true →
      selectVersion r version_spec = alistGet r.versions version_spec) ∧
    (∀ info, resolveVersionStep r version_spec name = .ok info ↔
      selectVersion r version_spec = some info) ∧
    (selectVersion r version_spec = none →
      resolveVersionStep r version_spec name =
        .error ("Version '" ++ version_spec ++ "' not found for package '" ++
          name ++ "'")) := by
  refine ⟨?_, ?_, ?_, ?_⟩
  · rintro (hl | hr)
    · simp [selectVersion, hl]
    · have hne := range_ne_latest version_spec hr
      have hex := isExact_false_of_range version_spec hr
      simp [selectVersion, hne, hex]
  · intro hs
    have hne := specExact_ne_latest version_spec hs
    have hex : is_exact_version version_spec = true := specExact_implies_isExact _ hs
    simp [selectVersion, hne, hex, NpmRegistryResponse.get_version]
  · intro info
    unfold resolveVersionStep
    cases hsel : selectVersion r version_spec <;> simp
  · intro hnone
    unfold resolveVersionStep
    rw [hnone]

/-- Witness for C5 at a concrete registry response: an exact spec selects
that version and a caret range selects the latest tag. -/
theorem C5_version_selection_witness :
    selectVersion rrSample "4.17.21" = alistGet rrSample.versions "4.17.21" ∧
    selectVersion rrSample "^4.0.0" = rrSample.get_latest_version :=
  ⟨(C5_version_selection rrSample "4.17.21" "lodash").2.1 (by decide),
   (C5_version_selection rrSample "^4.0.0" "lodash").1 (Or.inr (by decide))⟩

/-- Counterexample for C8 as stated: `is_exact_version` accepts
"1.2.3.4", which is not of the claimed `D.D.D[-pre]` form (it has four
dot-separated components). -/
theorem C8_is_exact_version_counterexample :
    is_exact_version "1.2.3.4" = true ∧ specExactVersionChars "1.2.3.4".data = false := by
  decide

/-- C8 (amended): `is_exact_version` returns true for every string of the
spec's `D.D.D[-pre]` form and false for every string starting with a range
operator and for "*"; the converse of the first part fails (see the
counterexample), because the code checks only the first three of at least
three components and allows empty digit prefixes. -/
theorem C8_is_exact_version_characterization (s : String) :
    (specExactVersionChars s.data = true → is_exact_version s = true) ∧
    (specRangeChars s.data = true → is_exact_version s = false) :=
  ⟨fun h => specExact_implies_isExact _ h, fun h => isExact_false_of_range s h⟩

/-- Witness for C8 (amended) at two concrete spec strings. -/
theorem C8_is_exact_version_characterization_witness :
    is_exact_version "1.2.3-beta.1" = true ∧ is_exact_version "^1.0.0" = false :=
  ⟨(C8_is_exact_version_characterization "1.2.3-beta.1").1 (by decide),
   (C8_is_exact_version_characterization "^1.0.0").2 (by decide)⟩

theorem removePackageList_not_found (name r : String) :
    ∀ l : List (String × LockedPackage), alistGet l name = none →
      (removePackageList name r l).2 = false := by
  intro l
  induction l with
  | nil => intro _; simp [removePackageList]
  | cons e rest ih =>
    intro h
    obtain ⟨k, p⟩ := e
    simp only [alistGet] at h
    by_cases hk : k = name
    · rw [if_pos hk] at h; exact absurd h (by simp)
    · rw [if_neg hk] at h
      simp only [removePackageList, if_neg hk]
      exact ih h

theorem removePackageList_found (name r : String) :
    ∀ (l : List (String × LockedPackage)) (p : LockedPackage),
      alistGet l name = some p →
      (removePackageList name r l).2 =
        (p.required_by.filter (fun dep => dep ≠ r)).isEmpty := by
  intro l
  induction l with
  | nil => intro p h; simp [alistGet] at h
  | cons e rest ih =>
    intro p h
    obtain ⟨k, q⟩ := e
    simp only [alistGet] at h
    by_cases hk : k = name
    · rw [if_pos hk] at h
      injection h with heq
      rw [← heq]
      simp only [removePackageList, if_pos hk]
      by_cases hke : (q.required_by.filter (fun dep => dep ≠ r)).isEmpty = true
      · rw [if_pos hke, hke]
      · rw [if_neg hke]
        simp only [Bool.not_eq_true] at hke
        rw [hke]
    · rw [if_neg hk] at h
      simp only [removePackageList, if_neg hk]
      exact ih p h

/-- C7 (amended): `can_remove_package` returns the entry's `required_by`
with the requester removed (empty when no entry exists), and agrees with
`remove_package`'s returned flag whenever an entry for the name exists; when
no entry exists, `remove_package` returns false while `can_remove_package`
returns `(true, [])`, so the claimed equivalence holds only for present
entries. -/
theorem C7_can_remove_agreement (lf : LockFile) (name requester : String) :
    ((lf.can_remove_package name requester).2 =
      match alistGet lf.packages name with
      | some p => p.required_by.filter (fun dep => dep ≠ requester)
      | none => []) ∧
    (∀ p, alistGet lf.packages name = some p →
      ((lf.remove_package name requester).2 = true ↔
        (lf.can_remove_package name requester).1 = true)) ∧
    (alistGet lf.packages name = none →
      (lf.remove_package name requester).2 = false ∧
      lf.can_remove_package name requester = (true, [])) := by
  refine ⟨?_, ?_, ?_⟩
  · unfold LockFile.can_remove_package
    cases alistGet lf.packages name <;> simp
  · intro p hp
    unfold LockFile.remove_package LockFile.can_remove_package
    rw [removePackageList_found name requester lf.packages p hp, hp]
  · intro hn
    unfold LockFile.remove_package LockFile.can_remove_package
    rw [removePackageList_not_found name requester lf.packages hn, hn]
    simp

/-- Witness for C7 (amended): the agreement at a one-entry lock, and the
divergent missing-entry values on the empty lock. -/
theorem C7_can_remove_agreement_witness :
    ((lockSample.remove_package "a" "root").2 = true ↔
      (lockSample.can_remove_package "a" "root").1 = true) ∧
    ((LockFile.new.remove_package "a" "root").2 = false ∧
      LockFile.new.can_remove_package "a" "root" = (true, [])) :=
  ⟨(C7_can_remove_agreement lockSample "a" "root").2.1
      ⟨"1.0.0", "url", "sha", none, ["root"]⟩ (by decide),
   (C7_can_remove_agreement LockFile.new "a" "root").2.2 (by decide)⟩

/-- Counterexample for C7 as stated: on the empty lock,
`remove_package` returns false but `can_remove_package`'s first component is
true, refuting the claimed equivalence in the missing-entry case. -/
theorem C7_can_remove_counterexample :
    ¬ ((LockFile.new.remove_package "a" "root").2 =
        (LockFile.new.can_remove_package "a" "root").1) := by
  decide

theorem addPackageList_nonempty (n v r i : String)
    (d : Option (List (String × String))) (rb : String) :
    ∀ l, (∀ e ∈ l, e.2.required_by ≠ []) →
      ∀ e ∈ addPackageList n v r i d rb l, e.2.required_by ≠ [] := by
  intro l
  induction l with
  | nil =>
    intro _ e he
    simp only [addPackageList, List.mem_singleton] at he
    subst he
    simp
  | cons hd rest ih =>
    intro h e he
    obtain ⟨k, p⟩ := hd
    simp only [addPackageList] at he
    by_cases hk : k = n
    · rw [if_pos hk] at he
      rcases List.mem_cons.mp he with h1 | h2
      · subst h1
        by_cases hmem : rb ∈ p.required_by
        · simp only [if_pos hmem]
          exact List.ne_nil_of_mem hmem
        · simp only [if_neg hmem]
          simp
      · exact h e (List.mem_cons.mpr (Or.inr h2))
    · rw [if_neg hk] at he
      rcases List.mem_cons.mp he with h1 | h2
      · subst h1
        exact h (k, p) (List.mem_cons_self _ _)
      · exact ih (fun x hx => h x (List.mem_cons.mpr (Or.inr hx))) e h2

theorem removePackageList_nonempty (n rb : String) :
    ∀ l, (∀ e ∈ l, e.2.required_by ≠ []) →
      ∀ e ∈ (removePackageList n rb l).1, e.2.required_by ≠ [] := by
  intro l
  induction l with
  | nil => intro _ e he; simp [removePackageList] at he
  | cons hd rest ih =>
    intro h e he
    obtain ⟨k, p⟩ := hd
    simp only [removePackageList] at he
    by_cases hk : k = n
    · rw [if_pos hk] at he
      by_cases hke : (p.required_by.filter (fun dep => dep ≠ rb)).isEmpty
      · rw [if_pos hke] at he
        exact h e (List.mem_cons.mpr (Or.inr he))
      · rw [if_neg hke] at he
        rcases List.mem_cons.mp he with h1 | h2
        · subst h1
          intro hnil
          dsimp only at hnil
          exact hke (by rw [hnil]; rfl)
        · exact h e (List.mem_cons.mpr (Or.inr h2))
    · rw [if_neg hk] at he
      rcases List.mem_cons.mp he with h1 | h2
      · subst h1
        exact h (k, p) (List.mem_cons_self _ _)
      · exact ih (fun x hx => h x (List.mem_cons.mpr (Or.inr hx))) e h2

/-- C4 (amended): after any sequence of `add_package`/`remove_package`
calls starting from `LockFile::new`, every lock entry's `required_by` is
non-empty.  (The claimed subset property fails; see the counterexample.) -/
theorem C4_required_by_nonempty (ops : List LockOp) :
    ∀ e ∈ (applyLockOps ops LockFile.new).packages, e.2.required_by ≠ [] := by
  have main : ∀ (ops : List LockOp) (lf : LockFile),
      (∀ e ∈ lf.packages, e.2.required_by ≠ []) →
      ∀ e ∈ (applyLockOps ops lf).packages, e.2.required_by ≠ [] := by
    intro ops
    induction ops with
    | nil => intro lf h; simpa [applyLockOps] using h
    | cons op rest ih =>
      intro lf h
      show ∀ e ∈ (applyLockOps rest (applyLockOp lf op)).packages, e.2.required_by ≠ []
      refine ih (applyLockOp lf op) ?_
      cases op with
      | add n v r i d rb =>
        intro e he
        exact addPackageList_nonempty n v r i d rb lf.packages h e
          (by simpa [applyLockOp, LockFile.add_package] using he)
      | remove n rb =>
        intro e he
        exact removePackageList_nonempty n rb lf.packages h e
          (by simpa [applyLockOp, LockFile.remove_package] using he)
  exact main ops LockFile.new (by simp [LockFile.new])

/-- Witness for C4 (amended) after one concrete `add_package`. -/
theorem C4_required_by_nonempty_witness :
    (⟨"1.0.0", "url", "sha", none, ["root"]⟩ : LockedPackage).required_by ≠ [] :=
  C4_required_by_nonempty [LockOp.add "a" "1.0.0" "url" "sha" none "root"]
    ("a", ⟨"1.0.0", "url", "sha", none, ["root"]⟩) (by decide)

/-- Counterexample for C4 as stated: one `add_package` call with
requester "b" yields an entry whose `required_by` is not contained in
`{"root"} ∪ {lock keys}`. -/
theorem C4_lock_invariant_counterexample :
    lockClaimInvariant
      (applyLockOps [LockOp.add "a" "1.0.0" "url" "sha" none "b"] LockFile.new) =
      false := by
  decide

/-- C1 (amended): for every download whose package is not the "circular"
cycle stub, a digest mismatch with a negative or absent operator answer
yields an error and no file at `dest`; and whenever a file is written at
`dest`, verification succeeded or the operator affirmatively overrode, and
the file was fsync'd before returning. -/
theorem C1_download_integrity (hashFn : List Nat → String)
    (package_info : PackageInfo) (httpBody : Option (List Nat)) (stdinLine : String) :
    (package_info.name ≠ "circular" →
      ∀ bytes, httpBody = some bytes →
        hashFn bytes ≠ package_info.dist.shasum →
        affirmativeAnswer stdinLine = false →
        (download_package hashFn package_info httpBody stdinLine).result ≠ .ok () ∧
        (download_package hashFn package_info httpBody stdinLine).fileWritten = false) ∧
    ((download_package hashFn package_info httpBody stdinLine).fileWritten = true →
      (∃ bytes, httpBody = some bytes ∧
        (hashFn bytes = package_info.dist.shasum ∨ affirmativeAnswer stdinLine = true)) ∧
      (download_package hashFn package_info httpBody stdinLine).fsynced = true) := by
  constructor
  · intro hname bytes hbody hmismatch hans
    subst hbody
    simp only [download_package, verify_package_integrity]
    rw [if_neg (by simpa using hmismatch), if_neg hname, if_neg (by simp [hans])]
    simp
  · intro hw
    match httpBody with
    | none => simp [download_package] at hw
    | some bytes =>
      simp only [download_package, verify_package_integrity] at hw ⊢
      by_cases hv : hashFn bytes = package_info.dist.shasum
      · rw [if_pos (by simpa using hv)] at hw ⊢
        exact ⟨⟨bytes, rfl, Or.inl hv⟩, rfl⟩
      · rw [if_neg (by simpa using hv)] at hw ⊢
        by_cases hc : package_info.name = "circular"
        · rw [if_pos hc] at hw
          simp at hw
        · rw [if_neg hc] at hw ⊢
          by_cases ha : affirmativeAnswer stdinLine = true
          · rw [if_pos ha] at hw ⊢
            exact ⟨⟨bytes, rfl, Or.inr ha⟩, rfl⟩
          · rw [if_neg ha] at hw
            simp at hw

/-- Counterexample for C1 as stated: for the cycle stub (name
"circular"), the digest mismatches and no operator answer is given, yet the
operation returns success (with no file written) instead of an error. -/
theorem C1_download_integrity_counterexample :
    sha1stub [] ≠ circularInfo.dist.shasum ∧
    affirmativeAnswer "" = false ∧
    (download_package sha1stub circularInfo (some []) "").result = .ok () ∧
    (download_package sha1stub circularInfo (some []) "").fileWritten = false := by
  decide

/-- Witness for C1 (amended) at a concrete non-circular package with a
mismatching digest and a negative answer. -/
theorem C1_download_integrity_witness :
    (download_package sha1stub plainInfo (some []) "n").result ≠ Except.ok () ∧
    (download_package sha1stub plainInfo (some []) "n").fileWritten = false :=
  (C1_download_integrity sha1stub plainInfo (some []) "n").1 (by decide) [] rfl
    (by decide) (by decide)

/-- C10: when the package name is "circular" and the declared digest does
not match the downloaded body, `download_package` returns success without
creating any file at `dest` (and without fsync), so a successful return does
not guarantee that `dest` exists. -/
theorem C10_circular_download (hashFn : List Nat → String)
    (package_info : PackageInfo) (bytes : List Nat) (stdinLine : String)
    (hname : package_info.name = "circular")
    (hmismatch : hashFn bytes ≠ package_info.dist.shasum) :
    download_package hashFn package_info (some bytes) stdinLine =
      ⟨.ok (), false, false⟩ := by
  simp only [download_package, verify_package_integrity]
  rw [if_neg (by simpa using hmismatch), if_pos hname]

/-- Witness for C10 at the concrete cycle stub (empty shasum). -/
theorem C10_circular_download_witness :
    download_package sha1stub circularInfo (some []) "" = ⟨.ok (), false, false⟩ :=
  C10_circular_download sha1stub circularInfo [] "" rfl (by decide)

/-- C2 (code bug): evaluating `cleanup_unused` at a store where active
"a@1.0.0" and inactive "b@1.0.0" share one content object shows that the
active package's metadata record survives but its content file is deleted
(while the content index still lists it), violating the spec's GC soundness
property that a reachable content file remains for every active package. -/
theorem C2_gc_shared_content_file_deleted :
    (alistGet (cleanup_unused gcSharedInput ["a@1.0.0"]).1.package_index
      "a@1.0.0").isSome = true ∧
    (cleanup_unused gcSharedInput ["a@1.0.0"]).1.contentFiles.contains "aa" = false ∧
    (alistGet (cleanup_unused gcSharedInput ["a@1.0.0"]).1.index "aa").isSome = true := by
  decide

/-- Counterexample for C3 as stated: storing the identical package twice
leaves stats with `total_packages = 1` and `space_saved = 0`, not
`total_packages = 2` and `space_saved > 0`. -/
theorem C3_dedup_stats_counterexample :
    ¬ ((get_store_stats (store_package sha1stub analyzeStub
          (store_package sha1stub analyzeStub ContentStoreState.empty "left-pad"
            "1.3.0" [1, 2, 3] "integ").1
          "left-pad" "1.3.0" [1, 2, 3] "integ").1).total_packages = 2 ∧
       (get_store_stats (store_package sha1stub analyzeStub
          (store_package sha1stub analyzeStub ContentStoreState.empty "left-pad"
            "1.3.0" [1, 2, 3] "integ").1
          "left-pad" "1.3.0" [1, 2, 3] "integ").1).unique_content_count = 1 ∧
       0 < (get_store_stats (store_package sha1stub analyzeStub
          (store_package sha1stub analyzeStub ContentStoreState.empty "left-pad"
            "1.3.0" [1, 2, 3] "integ").1
          "left-pad" "1.3.0" [1, 2, 3] "integ").1).space_saved) := by
  decide

/-- C3 (amended): storing the same package (same name, version and bytes)
twice from an empty store is a no-op the second time — the package index is
keyed by `name@version` — so the stats report one package, one unique
object, the tarball's size, no duplicates, and zero space saved. -/
theorem C3_dedup_stats (hashFn : List Nat → String)
    (analyze : List Nat → Option (List (String × String)) × List String)
    (name version : String) (data : List Nat) (integrity : String) :
    get_store_stats (store_package hashFn analyze
        (store_package hashFn analyze ContentStoreState.empty name version data
          integrity).1 name version data integrity).1 =
      ⟨1, 1, data.length, 0, 0⟩ := by
  simp [store_package, ContentStoreState.empty, alistGet, alistInsert,
    get_store_stats, contentUsage, calculate_space_saved]

theorem checkPackages_none_to_install (installedDirs : List String) :
    ∀ packages : List (String × String),
      (∀ p ∈ packages, installedDirs.contains p.1 = true) →
      (check_packages_already_installed installedDirs packages).2 = [] := by
  intro packages
  induction packages with
  | nil => intro _; rfl
  | cons hd rest ih =>
    intro h
    obtain ⟨name, version⟩ := hd
    have hh : installedDirs.contains name = true :=
      h (name, version) (List.mem_cons_self _ _)
    simp only [check_packages_already_installed, hh, if_true]
    exact ih fun p hp => h p (List.mem_cons.mpr (Or.inr hp))

/-- C6: if every requested root package's `node_modules` directory
already exists, `install_multiple_packages` returns success with the state
unchanged and an empty effect trace — no resolver invocation, no network
request, and no filesystem mutation under `node_modules`. -/
theorem C6_early_exit (env : NetEnv) (fuel : Nat) (st : InstallerState)
    (packages : List (String × String)) (is_dev is_specific : Bool)
    (h : ∀ p ∈ packages, st.installedDirs.contains p.1 = true) :
    install_multiple_packages env fuel st packages is_dev is_specific =
      (.ok (), st, []) := by
  have hc := checkPackages_none_to_install st.installedDirs packages h
  simp [install_multiple_packages, hc]

/-- Witness for C6 with one already-installed root. -/
theorem C6_early_exit_witness :
    install_multiple_packages envSample 5 ⟨["lodash"], LockFile.new⟩
      [("lodash", "latest")] false true =
      (.ok (), ⟨["lodash"], LockFile.new⟩, []) :=
  C6_early_exit envSample 5 ⟨["lodash"], LockFile.new⟩ [("lodash", "latest")]
    false true (by decide)

theorem addPackageList_preserves_mem (n v r i : String)
    (d : Option (List (String × String))) (rb k x : String) :
    ∀ (l : List (String × LockedPackage)) (p : LockedPackage),
      alistGet l k = some p → x ∈ p.required_by →
      ∃ q, alistGet (addPackageList n v r i d rb l) k = some q ∧
        x ∈ q.required_by := by
  intro l
  induction l with
  | nil => intro p h; simp [alistGet] at h
  | cons e rest ih =>
    intro p hget hmem
    obtain ⟨k0, q0⟩ := e
    simp only [alistGet] at hget
    by_cases hk0 : k0 = k
    · rw [if_pos hk0] at hget
      injection hget with heq
      simp only [addPackageList]
      by_cases hkn : k0 = n
      · rw [if_pos hkn]
        simp only [alistGet, if_pos hk0]
        by_cases hrb : rb ∈ q0.required_by
        · rw [if_pos hrb]
          exact ⟨q0, rfl, heq ▸ hmem⟩
        · rw [if_neg hrb]
          exact ⟨_, rfl, by simp only [List.mem_append]; exact Or.inl (heq ▸ hmem)⟩
      · rw [if_neg hkn]
        simp only [alistGet, if_pos hk0]
        exact ⟨q0, rfl, heq ▸ hmem⟩
    · rw [if_neg hk0] at hget
      simp only [addPackageList]
      by_cases hkn : k0 = n
      · rw [if_pos hkn]
        simp only [alistGet, if_neg hk0]
        exact ⟨p, hget, hmem⟩
      · rw [if_neg hkn]
        simp only [alistGet, if_neg hk0]
        exact ih p hget hmem

theorem addPackageList_mem_self (n v r i : String)
    (d : Option (List (String × String))) (rb : String) :
    ∀ l : List (String × LockedPackage),
      ∃ q, alistGet (addPackageList n v r i d rb l) n = some q ∧
        rb ∈ q.required_by := by
  intro l
  induction l with
  | nil =>
    exact ⟨⟨v, r, i, d, [rb]⟩, by simp [addPackageList, alistGet],
      List.mem_singleton.mpr rfl⟩
  | cons e rest ih =>
    obtain ⟨k0, q0⟩ := e
    simp only [addPackageList]
    by_cases hkn : k0 = n
    · rw [if_pos hkn]
      by_cases hrb : rb ∈ q0.required_by
      · rw [if_pos hrb]
        exact ⟨q0, by simp [alistGet, hkn], hrb⟩
      · rw [if_neg hrb]
        exact ⟨{ q0 with required_by := q0.required_by ++ [rb] },
          by simp [alistGet, hkn], by simp⟩
    · rw [if_neg hkn]
      obtain ⟨q, hq, hm⟩ := ih
      exact ⟨q, by simp only [alistGet, if_neg hkn]; exact hq, hm⟩

theorem requiredByMem_add_package (lf : LockFile) (n v r i : String)
    (d : Option (List (String × String))) (rb k x : String)
    (h : requiredByMem lf k x) :
    requiredByMem (lf.add_package n v r i d rb) k x := by
  obtain ⟨p, hget, hmem⟩ := h
  obtain ⟨q, hq, hqm⟩ :=
    addPackageList_preserves_mem n v r i d rb k x lf.packages p hget hmem
  exact ⟨q, hq, hqm⟩

theorem installDepTask_mono (env : NetEnv) (st : InstallerState)
    (dn dv pn k x : String) (h : requiredByMem st.lock k x) :
    requiredByMem (installDepTask env st dn dv pn).2.1.lock k x := by
  unfold installDepTask
  split
  · exact h
  · dsimp only
    split
    · exact h
    · split
      · exact h
      · split
        · exact h
        · split
          · exact requiredByMem_add_package st.lock _ _ _ _ _ _ k x h
          · exact h

theorem installDepsLoop_mono (env : NetEnv) (pn k x : String) :
    ∀ (deps : List (String × String)) (st : InstallerState),
      requiredByMem st.lock k x →
      requiredByMem (installDepsLoop env st pn deps).2.1.lock k x := by
  intro deps
  induction deps with
  | nil => intro st h; exact h
  | cons d rest ih =>
    intro st h
    obtain ⟨dn, dv⟩ := d
    simp only [installDepsLoop]
    split
    · exact ih _ (requiredByMem_add_package st.lock _ _ _ _ _ _ k x h)
    · have htask := installDepTask_mono env st dn dv pn k x h
      match htt : installDepTask env st dn dv pn with
      | (.error e, st', ev, nested?) =>
        rw [htt] at htask
        exact htask
      | (.ok u, st', ev, nested?) =>
        rw [htt] at htask
        exact ih st' htask

theorem idp_nested_mono (env : NetEnv) (k x : String) :
    ∀ fuel : Nat,
      (∀ (st : InstallerState) (deps : List (String × String)) (pn : String),
        requiredByMem st.lock k x →
        requiredByMem
          (install_dependencies_parallel env fuel st deps pn).2.1.lock k x) ∧
      (∀ (st : InstallerState)
        (batch : List (String × List (String × String))),
        requiredByMem st.lock k x →
        requiredByMem (nestedDepsLoop env fuel st batch).2.1.lock k x) := by
  intro fuel
  induction fuel with
  | zero =>
    constructor
    · intro st deps pn h
      exact h
    · intro st batch h
      exact h
  | succ fuel ih =>
    constructor
    · intro st deps pn h
      simp only [install_dependencies_parallel]
      have hloop := installDepsLoop_mono env pn k x deps st h
      match hll : installDepsLoop env st pn deps with
      | (.error e, st1, ev, nested) =>
        rw [hll] at hloop
        exact hloop
      | (.ok u, st1, ev, nested) =>
        rw [hll] at hloop
        exact ih.2 st1 nested hloop
    · intro st batch h
      match batch with
      | [] => exact h
      | (dep_name, deps) :: rest =>
        simp only [nestedDepsLoop]
        split
        · exact ih.2 st rest h
        · have hidp := ih.1 st deps dep_name h
          match hii : install_dependencies_parallel env fuel st deps dep_name with
          | (.error e, st', ev) =>
            rw [hii] at hidp
            exact hidp
          | (.ok u, st', ev) =>
            rw [hii] at hidp
            exact ih.2 st' rest hidp

/-- C9: when a dependency node (not an explicitly requested root,
`update_package_json = false`) is installed via the serial path and its
tarball fetch succeeds, the lock entry recorded for it lists the package's
own name in `required_by` — the requester argument is the package's own
name, not the parent's. -/
theorem C9_dep_lock_requester (env : NetEnv) (fuel : Nat) (st : InstallerState)
    (info : PackageInfo) (is_dev : Bool)
    (hname : info.name ≠ "circular")
    (hdir : st.installedDirs.contains info.name = false)
    (hfetch : (env.fetchTarball info.dist.tarball).isSome = true) :
    requiredByMem (install_single_package env fuel st info false is_dev).2.1.lock
      info.name info.name := by
  have hdir' : ¬(st.installedDirs.contains info.name = true) := by
    simp only [hdir]
    simp
  unfold install_single_package
  rw [if_neg hname, if_neg hdir']
  match hfb : env.fetchTarball info.dist.tarball with
  | none =>
    rw [hfb] at hfetch
    simp at hfetch
  | some bytes =>
    simp only [hfb]
    cases hdeps : info.dependencies with
    | none =>
      simp only [hdeps]
      obtain ⟨q, hq, hm⟩ :=
        addPackageList_mem_self info.name info.version info.dist.tarball
          info.dist.shasum none info.name st.lock.packages
      exact ⟨q, hq, hm⟩
    | some deps =>
      simp only [hdeps]
      have hself : requiredByMem
          (st.lock.add_package info.name info.version info.dist.tarball
            info.dist.shasum (some deps) info.name) info.name info.name := by
        obtain ⟨q, hq, hm⟩ :=
          addPackageList_mem_self info.name info.version info.dist.tarball
            info.dist.shasum (some deps) info.name st.lock.packages
        exact ⟨q, hq, hm⟩
      exact (idp_nested_mono env info.name info.name fuel).1
        ⟨insertName info.name st.installedDirs,
         st.lock.add_package info.name info.version info.dist.tarball
           info.dist.shasum (some deps) info.name⟩ deps info.name hself

/-- Witness for C9 at a concrete leaf dependency installed into an empty
project. -/
theorem C9_dep_lock_requester_witness :
    requiredByMem
      (install_single_package envFetchOk 3 ⟨[], LockFile.new⟩ depInfo false
        false).2.1.lock "ms" "ms" :=
  C9_dep_lock_requester envFetchOk 3 ⟨[], LockFile.new⟩ depInfo false
    (by decide) (by decide) rfl

end Clay
